import Mathlib

/-!
# Verification of `future` (package `github.com/sakjur/future`)

A shallow embedding of `future.go`: the `Future[T]` record, the goroutine
started by `New`, and the caller-side methods `Wait`, `MustWait`,
`Elapsed`, `Cancel` and `Done`, as a deterministic step function driven by
scheduler events.  The standard-library objects the code uses (`time.Time`,
`sync.RWMutex`, `context.Context`) are modelled by their documented
behaviour.
-/

namespace future

/-! ## Standard library: errors, time, lock, scope -/

/-- Values of Go's `error` interface that the program can meet: the two
sentinel errors of package `context` and any other error, identified by
its message. -/
inductive GoError where
  | canceled
  | deadlineExceeded
  | errorf (msg : String)
  deriving DecidableEq, Repr

/-- The `Error()` method. -/
def GoError.Error : GoError → String
  | .canceled => "context canceled"
  | .deadlineExceeded => "context deadline exceeded"
  | .errorf msg => msg

/-- A `time.Time`: the wall-clock instant in nanoseconds counted from
January 1, year 1, 00:00:00 UTC, and the optional monotonic clock reading. -/
structure Time where
  wall : Int
  mono : Option Int
  deriving DecidableEq, Repr

/-- The zero value of `time.Time`. -/
def Time.zero : Time := ⟨0, none⟩

/-- The method `t.IsZero()`: the wall-clock instant is January 1, year 1, 00:00:00 UTC. -/
def Time.IsZero (t : Time) : Bool := t.wall == 0

def minDuration : Int := -(2 ^ 63)

def maxDuration : Int := 2 ^ 63 - 1

/-- Saturation of a nanosecond count to the range of `time.Duration` (int64). -/
def clampDuration (d : Int) : Int :=
  if d < minDuration then minDuration else if maxDuration < d then maxDuration else d

/-- The exact difference `t - u` that `Sub` measures: on the monotonic
readings when both times carry one, on the wall-clock instants otherwise. -/
def Time.diff (t u : Time) : Int :=
  match t.mono, u.mono with
  | some a, some b => a - b
  | _, _ => t.wall - u.wall

/-- The method `t.Sub(u)`: the duration `t - u`, saturated to the `Duration` range. -/
def Time.Sub (t u : Time) : Int := clampDuration (t.diff u)

/-- The function `time.Since(t)` when `time.Now()` reads `now`: `time.Now().Sub(t)`. -/
def Since (t now : Time) : Int := now.Sub t

/-- A value of `time.Now()`: the system clock counts from an epoch long
after January 1, year 1, so what it reads is never the zero time instant. -/
structure Reading where
  time : Time
  nonzero : time.IsZero = false

/-- The clock reading with monotonic part `n` and wall-clock instant `n + 1`. -/
def reading (n : Nat) : Reading :=
  ⟨⟨(n : Int) + 1, some (n : Int)⟩, by
    simp only [Time.IsZero, beq_eq_false_iff_ne, ne_eq]; omega⟩

/-- A `sync.RWMutex`: whether the write lock is held, and how many read
locks are held. -/
structure RWMutex where
  writer : Bool
  readers : Nat
  deriving DecidableEq, Repr

/-- A cancellable `context.Context`, by what its `Err()` returns: `none`
while the scope is live. -/
structure Ctx where
  err : Option GoError
  deriving DecidableEq, Repr

/-- The scope returned by `context.WithCancel(parent)`: it is cancelled at
once, with the parent's error, when the parent is already cancelled. -/
def WithCancel (parent : Ctx) : Ctx := ⟨parent.err⟩

/-- The `CancelFunc` returned by `context.WithCancel`: the first
cancellation of the scope stores `context.Canceled`; later calls do nothing. -/
def Ctx.cancel (c : Ctx) : Ctx :=
  match c.err with
  | none => ⟨some .canceled⟩
  | some _ => c

/-- Cancellation of a scope by its owner with error `e` (`Canceled` for a
cancel function, `DeadlineExceeded` for an expired deadline). -/
def Ctx.cancelWith (c : Ctx) (e : GoError) : Ctx :=
  match c.err with
  | none => ⟨some e⟩
  | some _ => c

/-- What reaches a scope derived with `WithCancel` when the cancellation of
its parent is delivered to it: the parent's error, unless the scope is
cancelled already or the parent is still live. -/
def Ctx.inherit (child parent : Ctx) : Ctx :=
  match child.err, parent.err with
  | none, some e => ⟨some e⟩
  | _, _ => child

/-! ## The work function -/

/-- A work function `fn(ctx)`, by what it does with its scope: it returns a
value and an error, evaluates `ctx.Err()` and continues, does something
else for a while (`time.Sleep`), or never returns. -/
inductive Work (T : Type) where
  | ret (v : T) (e : Option GoError)
  | inspect (k : Option GoError → Work T)
  | pause (k : Work T)
  | hang

/-- The work function never reaches a point from which it cannot return. -/
def Work.Terminates {T : Type} : Work T → Prop
  | .ret _ _ => True
  | .inspect k => ∀ o, (k o).Terminates
  | .pause k => k.Terminates
  | .hang => False

/-! ## The handle and its threads -/

/-- The fields of `Future[T]` that live in the record itself.  The field
`cancel` is the cancel function of the derived scope, which is part of the
system state below. -/
structure Future (T : Type) where
  result : T
  err : Option GoError
  start : Time
  finish : Time
  lock : RWMutex

/-- Where the goroutine started by `New` stands; from `wroteResult` on it
carries the pair `fn(ctx)` returned. -/
inductive Bg (T : Type) where
  | running (w : Work T)
  | wroteResult (v : T) (e : Option GoError)
  | wroteErr (v : T) (e : Option GoError)
  | wroteFinish (v : T) (e : Option GoError)
  | cancelled (v : T) (e : Option GoError)
  | finished (v : T) (e : Option GoError)

/-- The two blocking retrieval methods. -/
inductive Call where
  | wait
  | mustWait
  deriving DecidableEq, Repr

/-- Where a caller thread stands in a call of `Wait` or `MustWait`. -/
inductive Pc (T : Type) where
  | idle
  | rlocked (c : Call)
  | gotResult (c : Call) (v : T)
  | gotErr (c : Call) (v : T) (e : Option GoError)
  | waitReturned (v : T) (e : Option GoError)
  | mustReturned (v : T)
  | panicked (e : GoError)

/-- The handle together with the scopes and threads around it. -/
structure Sys (T : Type) where
  f : Future T
  parent : Ctx
  child : Ctx
  bg : Bg T
  callers : Nat → Pc T

/-- What the scheduler and the environment can do next: a statement of the
goroutine of `New` (with what `time.Now()` reads, should the statement
call it), a statement of a caller thread in `Wait` or `MustWait`, a call of
`Cancel`, `Done` or `Elapsed`, the cancellation of the parent scope by its
owner, and the delivery of the parent's cancellation to the derived scope.
For a parent of package `context` the delivery follows the cancellation in
the same critical section; for any other `context.Context` a goroutine of
`WithCancel` delivers it later. -/
inductive Event where
  | bg (now : Reading)
  | call (c : Call) (tid : Nat)
  | cancel
  | done
  | elapsed (now : Time)
  | parentCancel (e : GoError)
  | propagate

/-- The constructor `New(ctx, fn)` when `time.Now()` reads `now`: the state in which `New`
returns, the goroutine started and the write lock held. -/
def New {T : Type} [Inhabited T] (ctx : Ctx) (fn : Work T) (now : Time) : Sys T where
  f := { result := default, err := none, start := now, finish := Time.zero,
         lock := ⟨true, 0⟩ }
  parent := ctx
  child := WithCancel ctx
  bg := .running fn
  callers := fun _ => .idle

/-- The method `f.Done()`: the finish time is not the zero time. -/
def Done {T : Type} (f : Future T) : Bool := !f.finish.IsZero

/-- The method `f.Elapsed()` when `time.Now()` reads `now`. -/
def Elapsed {T : Type} (f : Future T) (now : Time) : Int :=
  if !Done f then Since f.start now else f.finish.Sub f.start

/-- The end of `MustWait` once `Wait` has returned `(res, err)`. -/
def mustWaitEnd {T : Type} (res : T) (err : Option GoError) : Pc T :=
  match err with
  | some e => .panicked e
  | none => .mustReturned res

/-- One statement of the goroutine of `New`:
`f.result, f.err = fn(ctx); f.finish = time.Now(); cancel(); f.lock.Unlock()`. -/
def stepBg {T : Type} (s : Sys T) (now : Reading) : Sys T :=
  match s.bg with
  | .running (.ret v e) => { s with f := { s.f with result := v }, bg := .wroteResult v e }
  | .running (.inspect k) => { s with bg := .running (k s.child.err) }
  | .running (.pause k) => { s with bg := .running k }
  | .running .hang => s
  | .wroteResult v e => { s with f := { s.f with err := e }, bg := .wroteErr v e }
  | .wroteErr v e => { s with f := { s.f with finish := now.time }, bg := .wroteFinish v e }
  | .wroteFinish v e => { s with child := s.child.cancel, bg := .cancelled v e }
  | .cancelled v e =>
      { s with f := { s.f with lock := { s.f.lock with writer := false } }, bg := .finished v e }
  | .finished _ _ => s

/-- Thread `tid` tries `f.lock.RLock()` at the start of a call of `c`; it
stays where it is while the write lock is held. -/
def enter {T : Type} (s : Sys T) (c : Call) (tid : Nat) : Sys T :=
  if s.f.lock.writer then s
  else { s with f := { s.f with lock := { s.f.lock with readers := s.f.lock.readers + 1 } },
                callers := Function.update s.callers tid (.rlocked c) }

/-- One statement of thread `tid` in `Wait`
(`f.lock.RLock(); defer f.lock.RUnlock(); return f.result, f.err`) or in
`MustWait` around it; a thread that is in no call starts a call of `c`. -/
def stepCall {T : Type} (s : Sys T) (c : Call) (tid : Nat) : Sys T :=
  match s.callers tid with
  | .idle => enter s c tid
  | .waitReturned _ _ => enter s c tid
  | .mustReturned _ => enter s c tid
  | .panicked _ => s
  | .rlocked c' => { s with callers := Function.update s.callers tid (.gotResult c' s.f.result) }
  | .gotResult c' v => { s with callers := Function.update s.callers tid (.gotErr c' v s.f.err) }
  | .gotErr c' v e =>
      { s with f := { s.f with lock := { s.f.lock with readers := s.f.lock.readers - 1 } },
               callers := Function.update s.callers tid
                 (match c' with
                  | .wait => .waitReturned v e
                  | .mustWait => mustWaitEnd v e) }

/-- One event of the system. -/
def step {T : Type} (s : Sys T) : Event → Sys T
  | .bg now => stepBg s now
  | .call c tid => stepCall s c tid
  | .cancel => { s with child := s.child.cancel }
  | .done => s
  | .elapsed _ => s
  | .parentCancel e => { s with parent := s.parent.cancelWith e }
  | .propagate => { s with child := s.child.inherit s.parent }

/-- A schedule, run from state `s`. -/
def run {T : Type} (s : Sys T) (evs : List Event) : Sys T := evs.foldl step s

/-! ## Observations used in the statements -/

/-- The pair `fn(ctx)` returned, once the goroutine has started to store it. -/
def Bg.outcome {T : Type} : Bg T → Option (T × Option GoError)
  | .running _ => none
  | .wroteResult v e => some (v, e)
  | .wroteErr v e => some (v, e)
  | .wroteFinish v e => some (v, e)
  | .cancelled v e => some (v, e)
  | .finished v e => some (v, e)

/-- The statement `f.finish = time.Now()` has run. -/
def Bg.finishWritten {T : Type} : Bg T → Bool
  | .wroteFinish _ _ => true
  | .cancelled _ _ => true
  | .finished _ _ => true
  | _ => false

/-- The goroutine's own `cancel()` has run. -/
def Bg.scopeResolved {T : Type} : Bg T → Bool
  | .cancelled _ _ => true
  | .finished _ _ => true
  | _ => false

/-- The statement `f.lock.Unlock()` has run. -/
def Bg.released {T : Type} : Bg T → Bool
  | .finished _ _ => true
  | _ => false

/-- What a call of `MustWait` delivered to its caller: a value, or the
payload of the panic that aborts the caller's expression. -/
def Pc.mustWaitResult {T : Type} : Pc T → Option (Except GoError T)
  | .mustReturned v => some (.ok v)
  | .panicked e => some (.error e)
  | _ => none

/-- The caller-side operations: `Wait`, `MustWait`, `Cancel`, `Done`, `Elapsed`. -/
def Event.isCallerOp : Event → Bool
  | .call _ _ => true
  | .cancel => true
  | .done => true
  | .elapsed _ => true
  | _ => false

/-- The operations of the handle itself: the goroutine of `New` and the
caller-side methods; the cancellation of the parent scope by its owner and
its delivery by package `context` are not. -/
def Event.isHandleOp : Event → Bool
  | .parentCancel _ => false
  | .propagate => false
  | _ => true

/-- Every cancellation of the parent scope in the schedule is delivered to
the derived scope at once, as for a parent of package `context`. -/
def delivered : List Event → Bool
  | [] => true
  | .parentCancel _ :: .propagate :: evs => delivered evs
  | .parentCancel _ :: _ => false
  | _ :: evs => delivered evs

/-- The spec's `finishTime: Timestamp?` as the code represents it: the zero
`time.Time` stands for "unset". -/
def Future.finishTime {T : Type} (f : Future T) : Option Time :=
  if f.finish.IsZero then none else some f.finish

/-- Reference definition of `Elapsed()` in the spec's words: "now minus
startTime" if not yet completed, "finishTime minus startTime" if completed. -/
def ElapsedSpec (startTime : Time) (finishTime : Option Time) (now : Time) : Int :=
  match finishTime with
  | none => now.Sub startTime
  | some t => t.Sub startTime

/-- The work function of `ExampleFuture_Cancel`: sleep, then
`if ctx.Err() != nil { return 0, ctx.Err() }; return 42, nil`. -/
def cancelExampleBody : Work Int :=
  .inspect fun e₁ =>
    match e₁ with
    | some _ => .inspect fun e₂ => .ret 0 e₂
    | none => .ret 42 none

/-- The work function of `ExampleFuture_Cancel`, with its `time.Sleep`. -/
def cancelExample : Work Int := .pause cancelExampleBody

/-! ## Field accesses and the lock discipline -/

/-- The fields of `Future[T]` that are written after `New` has started the
goroutine, and `start`. -/
inductive Field where
  | result
  | err
  | start
  | finish
  deriving DecidableEq, Repr

/-- The caller-side methods. -/
inductive Method where
  | Wait
  | MustWait
  | Elapsed
  | Cancel
  | Done
  deriving DecidableEq, Repr

/-- The fields a method reads. -/
def Method.reads : Method → List Field
  | .Wait => [.result, .err]
  | .MustWait => [.result, .err]
  | .Elapsed => [.finish, .start]
  | .Cancel => []
  | .Done => [.finish]

/-- Whether the method reads them between `f.lock.RLock()` and
`f.lock.RUnlock()`. -/
def Method.underRLock : Method → Bool
  | .Wait => true
  | .MustWait => true
  | _ => false

/-- The field the goroutine's next statement writes, if it writes one. -/
def Bg.writes {T : Type} : Bg T → Option Field
  | .running (.ret _ _) => some .result
  | .wroteResult _ _ => some .err
  | .wroteErr _ _ => some .finish
  | _ => none

/-- The reads of method `m` can execute in state `s`: the method takes no
lock, or the read lock can be held. -/
def canRead {T : Type} (s : Sys T) (m : Method) : Bool :=
  !m.underRLock || !s.f.lock.writer

/-- A data race in state `s` between the goroutine and a call of `m`: the
goroutine's next statement writes a field that `m` reads, and the reads of
`m` can execute in `s` as well, so nothing orders the two accesses. -/
def races {T : Type} (s : Sys T) (m : Method) : Bool :=
  match s.bg.writes with
  | some fld => canRead s m && decide (fld ∈ m.reads)
  | none => false

/-! ## The invariant of the reachable states -/

/-- What a caller thread's position says about the handle: a thread past
`RLock` runs after the goroutine's `Unlock`, and what it has read is what
the handle stores. -/
def callerOk {T : Type} (f : Future T) (released : Bool) : Pc T → Prop
  | .idle => True
  | .rlocked _ => released = true
  | .gotResult _ v => released = true ∧ v = f.result
  | .gotErr _ v e => released = true ∧ v = f.result ∧ e = f.err
  | .waitReturned v e => released = true ∧ v = f.result ∧ e = f.err
  | .mustReturned v => released = true ∧ v = f.result ∧ f.err = none
  | .panicked e => released = true ∧ f.err = some e

/-- What the goroutine's position says about the fields it writes. -/
def fieldsOk {T : Type} [Inhabited T] (f : Future T) : Bg T → Prop
  | .running _ => f.result = default ∧ f.err = none ∧ f.finish = Time.zero
  | .wroteResult v _ => f.result = v ∧ f.err = none ∧ f.finish = Time.zero
  | .wroteErr v e => f.result = v ∧ f.err = e ∧ f.finish = Time.zero
  | .wroteFinish v e => f.result = v ∧ f.err = e ∧ f.finish.IsZero = false
  | .cancelled v e => f.result = v ∧ f.err = e ∧ f.finish.IsZero = false
  | .finished v e => f.result = v ∧ f.err = e ∧ f.finish.IsZero = false

/-- The invariant of the states reachable from `New` at start time `now₀`. -/
structure Inv {T : Type} [Inhabited T] (now₀ : Time) (s : Sys T) : Prop where
  start_eq : s.f.start = now₀
  writer_eq : s.f.lock.writer = !s.bg.released
  fields : fieldsOk s.f s.bg
  resolved : s.bg.scopeResolved = true → s.child.err ≠ none
  scope : s.child.err = none ∨ s.child.err = some .canceled ∨ s.child.err = s.parent.err
  callers : ∀ tid, callerOk s.f s.bg.released (s.callers tid)

/-- The thread has passed `f.lock.RLock()` in its current or in its last call. -/
def Pc.pastRLock {T : Type} : Pc T → Bool
  | .idle => false
  | _ => true

/-- The states of a handle that runs `cancelExample` after its scope was
ended with error `err` before the work function looked at it: the scope
reports `err`, and the work function is on its way to return `(0, err)` or
has returned it. -/
def scopeSeen (err : GoError) (s : Sys Int) : Prop :=
  s.child.err = some err ∧
  (s.bg = .running cancelExample ∨ s.bg = .running cancelExampleBody ∨
   s.bg = .running (.inspect fun e₂ => .ret 0 e₂) ∨
   s.bg = .running (.ret 0 (some err)) ∨
   s.bg.outcome = some (0, some err))

/-! ## Schedules -/

theorem run_nil {T : Type} (s : Sys T) : run s [] = s := rfl

theorem run_cons {T : Type} (s : Sys T) (ev : Event) (evs : List Event) :
    run s (ev :: evs) = run (step s ev) evs := rfl

theorem run_append {T : Type} (s : Sys T) (evs evs' : List Event) :
    run s (evs ++ evs') = run (run s evs) evs' := by
  simp [run, List.foldl_append]

/-! ## The invariant holds in every reachable state -/

theorem Inv_New {T : Type} [Inhabited T] (ctx : Ctx) (fn : Work T) (now : Time) :
    Inv now (New ctx fn now) := by
  refine ⟨rfl, rfl, ⟨rfl, rfl, rfl⟩, ?_, ?_, ?_⟩
  · intro h; simp [New, Bg.scopeResolved] at h
  · right; right; rfl
  · intro tid; simp [New, callerOk]

theorem cancel_err_ne_none (c : Ctx) : c.cancel.err ≠ none := by
  unfold Ctx.cancel
  cases h : c.err <;> simp [h]

theorem cancel_err_of_some (c : Ctx) (h : c.err ≠ none) : c.cancel = c := by
  unfold Ctx.cancel
  cases h' : c.err <;> simp_all

theorem cancel_scope (c p : Ctx)
    (h : c.err = none ∨ c.err = some .canceled ∨ c.err = p.err) :
    c.cancel.err = none ∨ c.cancel.err = some .canceled ∨ c.cancel.err = p.err := by
  unfold Ctx.cancel
  cases hc : c.err <;> simp_all

theorem cancelWith_scope (c p : Ctx) (e : GoError)
    (h : c.err = none ∨ c.err = some .canceled ∨ c.err = p.err) :
    c.err = none ∨ c.err = some .canceled ∨ c.err = (p.cancelWith e).err := by
  unfold Ctx.cancelWith
  cases hp : p.err <;> rcases h with h | h | h <;> simp_all

theorem inherit_scope (c p : Ctx)
    (h : c.err = none ∨ c.err = some .canceled ∨ c.err = p.err) :
    (c.inherit p).err = none ∨ (c.inherit p).err = some .canceled ∨
      (c.inherit p).err = p.err := by
  unfold Ctx.inherit
  cases hc : c.err <;> cases hp : p.err <;> simp_all

theorem inherit_err_of_some (c p : Ctx) (h : c.err ≠ none) : c.inherit p = c := by
  unfold Ctx.inherit
  cases hc : c.err <;> cases hp : p.err <;> simp_all

theorem inherit_err_ne_none (c p : Ctx) (h : p.err ≠ none) : (c.inherit p).err ≠ none := by
  unfold Ctx.inherit
  cases hc : c.err <;> cases hp : p.err <;> simp_all

theorem callerOk_of_not_released {T : Type} {f : Future T} {pc : Pc T}
    (h : callerOk f false pc) (f' : Future T) (r : Bool) : callerOk f' r pc := by
  cases pc <;> simp_all [callerOk]

theorem callerOk_congr {T : Type} {f f' : Future T} {r : Bool} {pc : Pc T}
    (h : callerOk f r pc) (hr : f'.result = f.result) (he : f'.err = f.err) :
    callerOk f' r pc := by
  cases pc <;> simp_all [callerOk]

theorem Inv_stepBg {T : Type} [Inhabited T] {now₀ : Time} {s : Sys T}
    (h : Inv now₀ s) (now : Reading) : Inv now₀ (stepBg s now) := by
  obtain ⟨f, parent, child, bg, callers⟩ := s
  obtain ⟨h1, h2, h3, h4, h5, h6⟩ := h
  cases bg with
  | running w =>
    cases w with
    | ret v e =>
      refine ⟨h1, h2, ?_, ?_, h5, ?_⟩
      · simp_all [stepBg, fieldsOk]
      · intro h; simp [stepBg, Bg.scopeResolved] at h
      · intro tid
        exact callerOk_of_not_released (by simpa [Bg.released] using h6 tid) _ _
    | inspect k => exact ⟨h1, h2, h3, by intro h; simp [stepBg, Bg.scopeResolved] at h, h5, h6⟩
    | pause k => exact ⟨h1, h2, h3, by intro h; simp [stepBg, Bg.scopeResolved] at h, h5, h6⟩
    | hang => exact ⟨h1, h2, h3, h4, h5, h6⟩
  | wroteResult v e =>
    refine ⟨h1, h2, ?_, ?_, h5, ?_⟩
    · simp_all [stepBg, fieldsOk]
    · intro h; simp [stepBg, Bg.scopeResolved] at h
    · intro tid
      exact callerOk_of_not_released (by simpa [Bg.released] using h6 tid) _ _
  | wroteErr v e =>
    refine ⟨h1, h2, ?_, ?_, h5, ?_⟩
    · simp_all [stepBg, fieldsOk, now.nonzero]
    · intro h; simp [stepBg, Bg.scopeResolved] at h
    · intro tid
      exact callerOk_of_not_released (by simpa [Bg.released] using h6 tid) _ _
  | wroteFinish v e =>
    refine ⟨h1, h2, h3, ?_, ?_, ?_⟩
    · intro _; exact cancel_err_ne_none child
    · exact cancel_scope child parent h5
    · intro tid
      exact callerOk_of_not_released (by simpa [Bg.released] using h6 tid) _ _
  | cancelled v e =>
    refine ⟨h1, rfl, h3, ?_, h5, ?_⟩
    · intro _; exact h4 rfl
    · intro tid
      exact callerOk_of_not_released (by simpa [Bg.released] using h6 tid) _ _
  | finished v e => exact ⟨h1, h2, h3, h4, h5, h6⟩

theorem Inv_enter {T : Type} [Inhabited T] {now₀ : Time} {s : Sys T}
    (h : Inv now₀ s) (c : Call) (tid : Nat) : Inv now₀ (enter s c tid) := by
  unfold enter
  by_cases hw : s.f.lock.writer = true
  · simpa [hw] using h
  · obtain ⟨h1, h2, h3, h4, h5, h6⟩ := h
    have hrel : s.bg.released = true := by
      cases hr : s.bg.released
      · rw [hr] at h2; simp [h2] at hw
      · rfl
    rw [if_neg hw]
    refine ⟨h1, h2, ?_, h4, h5, ?_⟩
    · revert h3; cases s.bg <;> simp [fieldsOk]
    · intro tid'
      by_cases ht : tid' = tid
      · subst ht; simp [callerOk, hrel]
      · simpa [Function.update_noteq ht] using callerOk_congr (h6 tid') rfl rfl

theorem Inv_stepCall {T : Type} [Inhabited T] {now₀ : Time} {s : Sys T}
    (h : Inv now₀ s) (c : Call) (tid : Nat) : Inv now₀ (stepCall s c tid) := by
  unfold stepCall
  have hc := h.callers tid
  obtain ⟨h1, h2, h3, h4, h5, h6⟩ := h
  split
  · exact Inv_enter ⟨h1, h2, h3, h4, h5, h6⟩ c tid
  · exact Inv_enter ⟨h1, h2, h3, h4, h5, h6⟩ c tid
  · exact Inv_enter ⟨h1, h2, h3, h4, h5, h6⟩ c tid
  · exact ⟨h1, h2, h3, h4, h5, h6⟩
  · rename_i c' hpc
    rw [hpc] at hc
    refine ⟨h1, h2, h3, h4, h5, ?_⟩
    intro tid'
    by_cases ht : tid' = tid
    · subst ht; simpa [callerOk] using hc
    · simpa [Function.update_noteq ht] using h6 tid'
  · rename_i c' v hpc
    rw [hpc] at hc
    refine ⟨h1, h2, h3, h4, h5, ?_⟩
    intro tid'
    by_cases ht : tid' = tid
    · subst ht; simpa [callerOk] using hc
    · simpa [Function.update_noteq ht] using h6 tid'
  · rename_i c' v e hpc
    rw [hpc] at hc
    refine ⟨h1, h2, ?_, h4, h5, ?_⟩
    · revert h3; cases s.bg <;> simp [fieldsOk]
    · intro tid'
      by_cases ht : tid' = tid
      · subst ht
        cases c'
        · simpa [callerOk] using hc
        · cases e <;> simp_all [callerOk, mustWaitEnd]
      · simpa [Function.update_noteq ht] using callerOk_congr (h6 tid') rfl rfl

theorem Inv_step {T : Type} [Inhabited T] {now₀ : Time} {s : Sys T}
    (h : Inv now₀ s) (ev : Event) : Inv now₀ (step s ev) := by
  cases ev with
  | bg now => exact Inv_stepBg h now
  | call c tid => exact Inv_stepCall h c tid
  | cancel =>
    obtain ⟨h1, h2, h3, h4, h5, h6⟩ := h
    exact ⟨h1, h2, h3, fun _ => cancel_err_ne_none _, cancel_scope _ _ h5, h6⟩
  | done => exact h
  | elapsed now => exact h
  | parentCancel e =>
    obtain ⟨h1, h2, h3, h4, h5, h6⟩ := h
    exact ⟨h1, h2, h3, h4, cancelWith_scope _ _ e h5, h6⟩
  | propagate =>
    obtain ⟨h1, h2, h3, h4, h5, h6⟩ := h
    refine ⟨h1, h2, h3, fun hr => ?_, inherit_scope _ _ h5, h6⟩
    have hne := h4 hr
    show (s.child.inherit s.parent).err ≠ none
    rw [inherit_err_of_some _ _ hne]; exact hne

theorem Inv_run {T : Type} [Inhabited T] {now₀ : Time} (evs : List Event) {s : Sys T}
    (h : Inv now₀ s) : Inv now₀ (run s evs) := by
  induction evs generalizing s with
  | nil => exact h
  | cons ev evs ih => exact ih (Inv_step h ev)

theorem Inv_reachable {T : Type} [Inhabited T] (ctx : Ctx) (fn : Work T) (now : Time)
    (evs : List Event) : Inv now (run (New ctx fn now) evs) :=
  Inv_run evs (Inv_New ctx fn now)

/-! ## Frame lemmas -/

theorem enter_frame {T : Type} (s : Sys T) (c : Call) (tid : Nat) :
    (enter s c tid).f.result = s.f.result ∧ (enter s c tid).f.err = s.f.err ∧
    (enter s c tid).f.finish = s.f.finish ∧ (enter s c tid).f.start = s.f.start ∧
    (enter s c tid).f.lock.writer = s.f.lock.writer ∧
    (enter s c tid).bg = s.bg ∧ (enter s c tid).parent = s.parent ∧
    (enter s c tid).child = s.child := by
  unfold enter
  split <;> simp

theorem stepCall_frame {T : Type} (s : Sys T) (c : Call) (tid : Nat) :
    (stepCall s c tid).f.result = s.f.result ∧ (stepCall s c tid).f.err = s.f.err ∧
    (stepCall s c tid).f.finish = s.f.finish ∧ (stepCall s c tid).f.start = s.f.start ∧
    (stepCall s c tid).f.lock.writer = s.f.lock.writer ∧
    (stepCall s c tid).bg = s.bg ∧ (stepCall s c tid).parent = s.parent ∧
    (stepCall s c tid).child = s.child := by
  unfold stepCall
  split <;> first | exact enter_frame s c tid | simp

/-- Every event other than a statement of the goroutine leaves the stored
fields, the write lock and the goroutine where they are. -/
theorem step_frame {T : Type} (s : Sys T) (ev : Event) (h : ∀ now, ev ≠ .bg now) :
    (step s ev).f.result = s.f.result ∧ (step s ev).f.err = s.f.err ∧
    (step s ev).f.finish = s.f.finish ∧ (step s ev).f.start = s.f.start ∧
    (step s ev).f.lock.writer = s.f.lock.writer ∧ (step s ev).bg = s.bg := by
  cases ev with
  | bg now => exact absurd rfl (h now)
  | call c tid =>
    obtain ⟨a, b, c', d, e, g, -, -⟩ := stepCall_frame s c tid
    exact ⟨a, b, c', d, e, g⟩
  | cancel => simp [step]
  | done => simp [step]
  | elapsed now => simp [step]
  | parentCancel e => simp [step]
  | propagate => simp [step]

theorem step_parent {T : Type} (s : Sys T) (ev : Event) (h : ev.isHandleOp = true) :
    (step s ev).parent = s.parent := by
  cases ev with
  | bg now =>
    obtain ⟨f, parent, child, bg, callers⟩ := s
    cases bg with
    | running w => cases w <;> rfl
    | _ => rfl
  | call c tid => exact (stepCall_frame s c tid).2.2.2.2.2.2.1
  | cancel => rfl
  | done => rfl
  | elapsed now => rfl
  | parentCancel e => simp [Event.isHandleOp] at h
  | propagate => simp [Event.isHandleOp] at h

theorem outcome_step {T : Type} (s : Sys T) (ev : Event) (p : T × Option GoError)
    (h : s.bg.outcome = some p) : (step s ev).bg.outcome = some p := by
  by_cases hb : ∀ now, ev ≠ .bg now
  · rw [(step_frame s ev hb).2.2.2.2.2]; exact h
  · push_neg at hb
    obtain ⟨now, rfl⟩ := hb
    obtain ⟨f, parent, child, bg, callers⟩ := s
    cases bg <;> simp_all [step, stepBg, Bg.outcome]

theorem outcome_run {T : Type} (evs : List Event) (s : Sys T) (p : T × Option GoError)
    (h : s.bg.outcome = some p) : (run s evs).bg.outcome = some p := by
  induction evs generalizing s with
  | nil => exact h
  | cons ev evs ih => exact ih _ (outcome_step s ev p h)

/-- Once `f.finish = time.Now()` has run, no event changes a stored field. -/
theorem step_stored {T : Type} (s : Sys T) (ev : Event) (h : s.bg.finishWritten = true) :
    (step s ev).f.result = s.f.result ∧ (step s ev).f.err = s.f.err ∧
    (step s ev).f.finish = s.f.finish ∧ (step s ev).f.start = s.f.start ∧
    (step s ev).bg.finishWritten = true := by
  by_cases hb : ∀ now, ev ≠ .bg now
  · obtain ⟨a, b, c, d, -, g⟩ := step_frame s ev hb
    exact ⟨a, b, c, d, by rw [g]; exact h⟩
  · push_neg at hb
    obtain ⟨now, rfl⟩ := hb
    obtain ⟨f, parent, child, bg, callers⟩ := s
    cases bg <;> simp_all [step, stepBg, Bg.finishWritten]

theorem run_stored {T : Type} (evs : List Event) (s : Sys T) (h : s.bg.finishWritten = true) :
    (run s evs).f.result = s.f.result ∧ (run s evs).f.err = s.f.err ∧
    (run s evs).f.finish = s.f.finish ∧ (run s evs).f.start = s.f.start ∧
    (run s evs).bg.finishWritten = true := by
  induction evs generalizing s with
  | nil => exact ⟨rfl, rfl, rfl, rfl, h⟩
  | cons ev evs ih =>
    obtain ⟨a, b, c, d, g⟩ := step_stored s ev h
    obtain ⟨a', b', c', d', g'⟩ := ih (step s ev) g
    exact ⟨a'.trans a, b'.trans b, c'.trans c, d'.trans d, g'⟩

/-- In a reachable state `Done()` can only be true after `f.finish = time.Now()`. -/
theorem finishWritten_of_Done {T : Type} [Inhabited T] {now₀ : Time} {s : Sys T}
    (h : Inv now₀ s) (hd : Done s.f = true) : s.bg.finishWritten = true := by
  have hf := h.fields
  revert hf
  cases hb : s.bg <;> simp [fieldsOk, Bg.finishWritten] <;> intro _ _ hz <;>
    simp [Done, hz, Time.IsZero, Time.zero] at hd

/-- In a reachable state `Done()` is true once `f.finish = time.Now()` has run. -/
theorem Done_of_finishWritten {T : Type} [Inhabited T] {now₀ : Time} {s : Sys T}
    (h : Inv now₀ s) (hw : s.bg.finishWritten = true) : Done s.f = true := by
  have hf := h.fields
  revert hf hw
  cases hb : s.bg <;> simp [fieldsOk, Bg.finishWritten, Done]

/-- In a reachable state `Done()` tells whether `f.finish = time.Now()` has run. -/
theorem Done_eq_finishWritten {T : Type} [Inhabited T] {now₀ : Time} {s : Sys T}
    (h : Inv now₀ s) : Done s.f = s.bg.finishWritten := by
  cases hw : s.bg.finishWritten
  · cases hd : Done s.f
    · rfl
    · rw [finishWritten_of_Done h hd] at hw; exact absurd hw (by simp)
  · exact Done_of_finishWritten h hw

/-! ## Progress -/

/-- Four statements after `fn(ctx)` has returned, the goroutine has
released the lock. -/
theorem bg_finishes {T : Type} (s : Sys T) (v : T) (e : Option GoError) (now : Reading)
    (h : s.bg.outcome = some (v, e)) :
    (run s (List.replicate 4 (.bg now))).bg = .finished v e := by
  obtain ⟨f, parent, child, bg, callers⟩ := s
  cases bg <;> simp [Bg.outcome] at h <;> obtain ⟨rfl, rfl⟩ := h <;> rfl

theorem run_bg_callers {T : Type} (n : Nat) (s : Sys T) (now : Reading) :
    (run s (List.replicate n (.bg now))).callers = s.callers := by
  induction n generalizing s with
  | zero => rfl
  | succ n ih =>
    rw [List.replicate_succ, run_cons, ih]
    obtain ⟨f, parent, child, bg, callers⟩ := s
    cases bg with
    | running w => cases w <;> rfl
    | _ => rfl

/-- A call started after the goroutine has released the lock returns after
four statements with what the handle stores. -/
theorem call_completes {T : Type} [Inhabited T] {now₀ : Time} (s : Sys T) (h : Inv now₀ s)
    (v : T) (e : Option GoError) (hb : s.bg = .finished v e) (c : Call) (tid : Nat)
    (hidle : s.callers tid = .idle) :
    (run s (List.replicate 4 (.call c tid))).callers tid =
      (match c with
       | .wait => .waitReturned v e
       | .mustWait => mustWaitEnd v e) := by
  obtain ⟨h1, h2, h3, h4, h5, h6⟩ := h
  obtain ⟨f, parent, child, bg, callers⟩ := s
  simp only at hb hidle
  subst hb
  simp only [Bg.released, Bool.not_true] at h2
  simp only [fieldsOk] at h3
  obtain ⟨hr, he, -⟩ := h3
  simp [run, step, stepCall, enter, hidle, h2, hr, he]

/-- A work function that terminates returns: after enough statements of
the goroutine the pair it returned is there. -/
theorem work_returns {T : Type} (w : Work T) (hw : w.Terminates) (now : Reading) :
    ∀ s : Sys T, s.bg = .running w →
      ∃ n, (run s (List.replicate n (.bg now))).bg.outcome ≠ none := by
  induction w with
  | ret v e =>
    intro s hs
    refine ⟨1, ?_⟩
    obtain ⟨f, parent, child, bg, callers⟩ := s
    simp only at hs
    subst hs
    simp [run, step, stepBg, Bg.outcome]
  | inspect k ih =>
    intro s hs
    obtain ⟨n, hn⟩ := ih s.child.err (hw s.child.err) (step s (.bg now)) (by
      obtain ⟨f, parent, child, bg, callers⟩ := s
      simp only at hs
      subst hs
      rfl)
    exact ⟨n + 1, by rw [List.replicate_succ, run_cons]; exact hn⟩
  | pause k ih =>
    intro s hs
    obtain ⟨n, hn⟩ := ih hw (step s (.bg now)) (by
      obtain ⟨f, parent, child, bg, callers⟩ := s
      simp only at hs
      subst hs
      rfl)
    exact ⟨n + 1, by rw [List.replicate_succ, run_cons]; exact hn⟩
  | hang => exact absurd hw (by simp [Work.Terminates])

/-- After the goroutine's `Unlock` its position carries what the handle stores. -/
theorem finished_of_released {T : Type} [Inhabited T] {now₀ : Time} {s : Sys T}
    (h : Inv now₀ s) (hr : s.bg.released = true) :
    s.bg = .finished s.f.result s.f.err := by
  have hf := h.fields
  revert hf hr
  cases s.bg <;> simp [fieldsOk, Bg.released]
  intro a b _; simp [a, b]

/-- A terminating work function lets a call started by an idle thread return. -/
theorem call_returns {T : Type} [Inhabited T] (ctx : Ctx) (fn : Work T) (now₀ : Time)
    (hfn : fn.Terminates) (now : Reading) (c : Call) (tid : Nat) :
    ∃ n v e,
      (run (New ctx fn now₀) (List.replicate n (.bg now))).bg.outcome = some (v, e) ∧
      (run (New ctx fn now₀) (List.replicate n (.bg now) ++ List.replicate 4 (.bg now) ++
          List.replicate 4 (.call c tid))).callers tid =
        (match c with
         | .wait => .waitReturned v e
         | .mustWait => mustWaitEnd v e) := by
  obtain ⟨n, hn⟩ := work_returns fn hfn now (New ctx fn now₀) rfl
  obtain ⟨⟨v, e⟩, hve⟩ := Option.ne_none_iff_exists'.mp hn
  refine ⟨n, v, e, hve, ?_⟩
  rw [run_append, run_append]
  have hinv : Inv now₀ (run (run (New ctx fn now₀) (List.replicate n (.bg now)))
      (List.replicate 4 (.bg now))) := by
    rw [← run_append]; exact Inv_reachable _ _ _ _
  refine call_completes _ hinv v e (bg_finishes _ v e now hve) c tid ?_
  rw [run_bg_callers, run_bg_callers]
  rfl

/-- From the point where the work function is about to return `(v, e)`,
the goroutine is either still there or carries `(v, e)`. -/
theorem ret_outcome_run {T : Type} (evs : List Event) (s : Sys T) (v : T)
    (e : Option GoError) (h : s.bg = .running (.ret v e) ∨ s.bg.outcome = some (v, e)) :
    (run s evs).bg = .running (.ret v e) ∨ (run s evs).bg.outcome = some (v, e) := by
  induction evs generalizing s with
  | nil => exact h
  | cons ev evs ih =>
    apply ih
    rcases h with h | h
    · by_cases hb : ∀ now, ev ≠ .bg now
      · left; rw [(step_frame s ev hb).2.2.2.2.2]; exact h
      · push_neg at hb
        obtain ⟨now, rfl⟩ := hb
        obtain ⟨f, parent, child, bg, callers⟩ := s
        simp only at h
        subst h
        right; rfl
    · right; exact outcome_step s ev _ h

/-! ## Retrieval: `Wait` and `MustWait` -/

/-- C1: on every schedule of a handle made by `New`, a `Wait()` that has
returned has returned exactly the pair `(v, e)` the goroutine carries from
the work function, which is also what the fields `result` and `err` hold;
once the work function has returned `(v, e)`, a `Wait()` started by an idle
thread returns `(v, e)` four statements after the goroutine's last four;
from a state in which the work function is at `return v, e`, every
`Wait()` that returns later returns `(v, e)`, for every value and every
error, absent or not; and a work function that terminates does return,
so `Wait()` returns. -/
theorem Wait_returns_work_outcome {T : Type} [Inhabited T] (ctx : Ctx) (fn : Work T)
    (now₀ : Time) (evs : List Event) :
    (∀ tid v e, (run (New ctx fn now₀) evs).callers tid = .waitReturned v e →
      (run (New ctx fn now₀) evs).bg = .finished v e ∧
      (run (New ctx fn now₀) evs).f.result = v ∧ (run (New ctx fn now₀) evs).f.err = e) ∧
    (∀ v e tid now, (run (New ctx fn now₀) evs).bg.outcome = some (v, e) →
      (run (New ctx fn now₀) evs).callers tid = .idle →
      (run (run (New ctx fn now₀) evs)
        (List.replicate 4 (.bg now) ++ List.replicate 4 (.call .wait tid))).callers tid =
        .waitReturned v e) ∧
    (∀ v e evs' tid v' e', (run (New ctx fn now₀) evs).bg = .running (.ret v e) →
      (run (run (New ctx fn now₀) evs) evs').callers tid = .waitReturned v' e' →
      v' = v ∧ e' = e) ∧
    (fn.Terminates → ∀ now tid, ∃ n v e,
      (run (New ctx fn now₀) (List.replicate n (.bg now))).bg.outcome = some (v, e) ∧
      (run (New ctx fn now₀) (List.replicate n (.bg now) ++ List.replicate 4 (.bg now) ++
          List.replicate 4 (.call .wait tid))).callers tid = .waitReturned v e) := by
  have hinv := Inv_reachable ctx fn now₀ evs
  refine ⟨?_, ?_, ?_, ?_⟩
  · intro tid v e hc
    have h := hinv.callers tid
    rw [hc] at h
    obtain ⟨hr, rfl, rfl⟩ := h
    exact ⟨finished_of_released hinv hr, rfl, rfl⟩
  · intro v e tid now hout hidle
    rw [run_append]
    have hinv' : Inv now₀ (run (run (New ctx fn now₀) evs) (List.replicate 4 (.bg now))) :=
      Inv_run _ hinv
    refine call_completes _ hinv' v e (bg_finishes _ v e now hout) .wait tid ?_
    rw [run_bg_callers]; exact hidle
  · intro v e evs' tid v' e' hb hc
    have hinv' : Inv now₀ (run (run (New ctx fn now₀) evs) evs') := Inv_run _ hinv
    have h := hinv'.callers tid
    rw [hc] at h
    obtain ⟨hr, rfl, rfl⟩ := h
    have hfin := finished_of_released hinv' hr
    rcases ret_outcome_run evs' _ v e (Or.inl hb) with h | h
    · rw [hfin] at h; cases h
    · rw [hfin] at h; simpa [Bg.outcome] using h
  · intro hfn now tid
    exact call_returns ctx fn now₀ hfn now .wait tid

/-- The example `ExampleNew`: the work function returns `("Hello, world", nil)`
and `Wait()` returns `("Hello, world", nil)`; and a non-zero value together
with an error comes back as it is. -/
theorem Wait_returns_work_outcome_witness :
    (run (New ⟨none⟩ (.ret "Hello, world" none) ⟨1, some 0⟩)
      ([.bg (reading 1)] ++ (List.replicate 4 (.bg (reading 1)) ++
        List.replicate 4 (.call .wait 0)))).callers 0 = .waitReturned "Hello, world" none ∧
    (run (New ⟨none⟩ (.ret (7 : Int) (some (.errorf "boom"))) ⟨1, some 0⟩)
      ([.bg (reading 1)] ++ (List.replicate 4 (.bg (reading 1)) ++
        List.replicate 4 (.call .wait 0)))).callers 0 =
      .waitReturned 7 (some (.errorf "boom")) := by
  constructor
  · rw [run_append]
    exact (Wait_returns_work_outcome ⟨none⟩ (.ret "Hello, world" none) ⟨1, some 0⟩
      [.bg (reading 1)]).2.1 "Hello, world" none 0 (reading 1) rfl rfl
  · rw [run_append]
    exact (Wait_returns_work_outcome ⟨none⟩ (.ret (7 : Int) (some (.errorf "boom")))
      ⟨1, some 0⟩ [.bg (reading 1)]).2.1 7 (some (.errorf "boom")) 0 (reading 1) rfl rfl

/-- C2: on every schedule, a `MustWait()` that has returned `v` did so
because the work function returned `(v, nil)`, and a `MustWait()` that has
panicked with payload `err` did so because the work function returned an
error, that very `err`; once the work function has returned `(v, e)`, a
`MustWait()` started by an idle thread ends in a panic with payload `err`
when `e` is the error `err`, and returns `v` when `e` is absent. -/
theorem MustWait_panics_iff_error {T : Type} [Inhabited T] (ctx : Ctx) (fn : Work T)
    (now₀ : Time) (evs : List Event) :
    (∀ tid v, (run (New ctx fn now₀) evs).callers tid = .mustReturned v →
      (run (New ctx fn now₀) evs).bg.outcome = some (v, none)) ∧
    (∀ tid err, (run (New ctx fn now₀) evs).callers tid = .panicked err →
      (run (New ctx fn now₀) evs).bg.outcome =
        some ((run (New ctx fn now₀) evs).f.result, some err)) ∧
    (∀ v e tid now, (run (New ctx fn now₀) evs).bg.outcome = some (v, e) →
      (run (New ctx fn now₀) evs).callers tid = .idle →
      ((run (run (New ctx fn now₀) evs)
        (List.replicate 4 (.bg now) ++
          List.replicate 4 (.call .mustWait tid))).callers tid).mustWaitResult =
        some (match e with
              | some err => .error err
              | none => .ok v)) := by
  have hinv := Inv_reachable ctx fn now₀ evs
  refine ⟨?_, ?_, ?_⟩
  · intro tid v hc
    have h := hinv.callers tid
    rw [hc] at h
    obtain ⟨hr, rfl, he⟩ := h
    rw [finished_of_released hinv hr, he]; rfl
  · intro tid err hc
    have h := hinv.callers tid
    rw [hc] at h
    obtain ⟨hr, he⟩ := h
    rw [finished_of_released hinv hr]
    simp [Bg.outcome, he]
  · intro v e tid now hout hidle
    rw [run_append]
    have hinv' : Inv now₀ (run (run (New ctx fn now₀) evs) (List.replicate 4 (.bg now))) :=
      Inv_run _ hinv
    rw [call_completes _ hinv' v e (bg_finishes _ v e now hout) .mustWait tid
      (by rw [run_bg_callers]; exact hidle)]
    cases e <;> rfl

/-- The examples `ExampleFuture_MustWait` and `ExampleFuture_MustWait2`:
with outcome `(42, nil)` the expression `22 + f.MustWait()` is `64`; with
outcome `(0, "whoops")` the call panics with payload `whoops` and the
addition yields nothing. -/
theorem MustWait_panics_iff_error_witness :
    (((run (New ⟨none⟩ (.ret (42 : Int) none) ⟨1, some 0⟩)
      ([.bg (reading 1)] ++ (List.replicate 4 (.bg (reading 1)) ++
        List.replicate 4 (.call .mustWait 0)))).callers 0).mustWaitResult.map
          fun r => r.map fun x => 22 + x) = some (.ok 64) ∧
    (((run (New ⟨none⟩ (.ret (0 : Int) (some (.errorf "whoops"))) ⟨1, some 0⟩)
      ([.bg (reading 1)] ++ (List.replicate 4 (.bg (reading 1)) ++
        List.replicate 4 (.call .mustWait 0)))).callers 0).mustWaitResult.map
          fun r => r.map fun x => 22 + x) = some (.error (.errorf "whoops")) ∧
    (GoError.errorf "whoops").Error = "whoops" := by
  refine ⟨?_, ?_, rfl⟩
  · rw [run_append, (MustWait_panics_iff_error ⟨none⟩ (.ret (42 : Int) none) ⟨1, some 0⟩
      [.bg (reading 1)]).2.2 42 none 0 (reading 1) rfl rfl]
    rfl
  · rw [run_append, (MustWait_panics_iff_error ⟨none⟩ (.ret (0 : Int) (some (.errorf "whoops")))
      ⟨1, some 0⟩ [.bg (reading 1)]).2.2 0 (some (.errorf "whoops")) 0 (reading 1) rfl rfl]
    rfl

/-- C3: `Done()` is false in the state `New` returns; in every reachable
state `Done()` is true exactly when the goroutine has run
`f.finish = time.Now()`, so it is false in every state before that
statement; the statement makes it true for every clock reading it can
take; and once true `Done()` stays true in every state reachable
afterwards. -/
theorem Done_iff_finish_written {T : Type} [Inhabited T] (ctx : Ctx) (fn : Work T)
    (now₀ : Time) (evs : List Event) :
    Done (New ctx fn now₀).f = false ∧
    Done (run (New ctx fn now₀) evs).f = (run (New ctx fn now₀) evs).bg.finishWritten ∧
    (∀ v e (now : Reading), (run (New ctx fn now₀) evs).bg = .wroteErr v e →
      Done (run (New ctx fn now₀) evs).f = false ∧
      (step (run (New ctx fn now₀) evs) (.bg now)).bg = .wroteFinish v e ∧
      (step (run (New ctx fn now₀) evs) (.bg now)).f.finish = now.time ∧
      Done (step (run (New ctx fn now₀) evs) (.bg now)).f = true) ∧
    (Done (run (New ctx fn now₀) evs).f = true →
      ∀ evs', Done (run (run (New ctx fn now₀) evs) evs').f = true) := by
  have hinv := Inv_reachable ctx fn now₀ evs
  refine ⟨rfl, Done_eq_finishWritten hinv, ?_, ?_⟩
  · intro v e now hb
    have hstep : (step (run (New ctx fn now₀) evs) (.bg now)).bg = .wroteFinish v e ∧
        (step (run (New ctx fn now₀) evs) (.bg now)).f.finish = now.time := by
      revert hb
      generalize run (New ctx fn now₀) evs = s
      intro hb
      obtain ⟨f, parent, child, bg, callers⟩ := s
      simp only at hb
      subst hb
      exact ⟨rfl, rfl⟩
    refine ⟨?_, hstep.1, hstep.2, ?_⟩
    · rw [Done_eq_finishWritten hinv, hb]; rfl
    · rw [Done_eq_finishWritten (Inv_step hinv (.bg now)), hstep.1]; rfl
  · intro hd evs'
    have hw := finishWritten_of_Done hinv hd
    have hfin := (run_stored evs' _ hw).2.2.1
    simpa [Done, hfin] using hd

/-- A handle whose work function returns `(42, nil)`: `Done()` is false
after the two statements that store the pair and true after the third,
which stores the finish time. -/
theorem Done_iff_finish_written_witness :
    Done (run (New ⟨none⟩ (.ret (42 : Int) none) ⟨1, some 0⟩)
      [.bg (reading 8), .bg (reading 8)]).f = false ∧
    Done (run (New ⟨none⟩ (.ret (42 : Int) none) ⟨1, some 0⟩)
      [.bg (reading 8), .bg (reading 8), .bg (reading 8)]).f = true := by
  constructor
  · rw [(Done_iff_finish_written ⟨none⟩ (.ret (42 : Int) none) ⟨1, some 0⟩
      [.bg (reading 8), .bg (reading 8)]).2.1]
    rfl
  · exact ((Done_iff_finish_written ⟨none⟩ (.ret (42 : Int) none) ⟨1, some 0⟩
      [.bg (reading 8), .bg (reading 8)]).2.2.1 42 none (reading 8) rfl).2.2.2

/-- C4: in every reachable state `Elapsed()` is the reference definition
applied to the start time and the finish time the handle stores; the start
time is the clock reading of `New`; while the finish time is unset (in
particular before `f.finish = time.Now()` has run) it is the current clock
reading minus the start time; once the finish time is set it is the finish
time minus the start time, whatever the current clock reading and in every
state reachable afterwards, which is the case as soon as the goroutine has
run `f.finish = time.Now()`. -/
theorem Elapsed_eq_ElapsedSpec {T : Type} [Inhabited T] (ctx : Ctx) (fn : Work T)
    (now₀ : Time) (evs : List Event) (now : Time) :
    Elapsed (run (New ctx fn now₀) evs).f now =
      ElapsedSpec (run (New ctx fn now₀) evs).f.start
        (run (New ctx fn now₀) evs).f.finishTime now ∧
    (run (New ctx fn now₀) evs).f.start = now₀ ∧
    ((run (New ctx fn now₀) evs).bg.finishWritten = false →
      Elapsed (run (New ctx fn now₀) evs).f now = now.Sub now₀) ∧
    (Done (run (New ctx fn now₀) evs).f = false →
      Elapsed (run (New ctx fn now₀) evs).f now = now.Sub now₀) ∧
    (Done (run (New ctx fn now₀) evs).f = true → ∀ evs' now',
      Elapsed (run (run (New ctx fn now₀) evs) evs').f now' =
        (run (New ctx fn now₀) evs).f.finish.Sub now₀) ∧
    ((run (New ctx fn now₀) evs).bg.finishWritten = true → ∀ evs' now',
      Elapsed (run (run (New ctx fn now₀) evs) evs').f now' =
        (run (New ctx fn now₀) evs).f.finish.Sub now₀) := by
  have hinv := Inv_reachable ctx fn now₀ evs
  have hstart := hinv.start_eq
  have hpending : Done (run (New ctx fn now₀) evs).f = false →
      Elapsed (run (New ctx fn now₀) evs).f now = now.Sub now₀ := by
    intro hd; simp [Elapsed, hd, Since, hstart]
  have hset : Done (run (New ctx fn now₀) evs).f = true → ∀ evs' now',
      Elapsed (run (run (New ctx fn now₀) evs) evs').f now' =
        (run (New ctx fn now₀) evs).f.finish.Sub now₀ := by
    intro hd evs' now'
    have hw := finishWritten_of_Done hinv hd
    obtain ⟨-, -, hfin, hst, -⟩ := run_stored evs' _ hw
    have hd' : Done (run (run (New ctx fn now₀) evs) evs').f = true := by
      simpa [Done, hfin] using hd
    simp [Elapsed, hd', hfin, hst, hstart]
  refine ⟨?_, hstart, ?_, hpending, hset, ?_⟩
  · cases hz : (run (New ctx fn now₀) evs).f.finish.IsZero <;>
      simp [Elapsed, Done, Future.finishTime, ElapsedSpec, Since, hz]
  · intro hw
    apply hpending
    cases hd : Done (run (New ctx fn now₀) evs).f
    · rfl
    · rw [finishWritten_of_Done hinv hd] at hw; exact absurd hw (by simp)
  · intro hw
    exact hset (Done_of_finishWritten hinv hw)

/-- A handle started at monotonic reading 0 and finished at reading 8:
`Elapsed()` is 5 when polled at reading 5 before completion and 8 after
completion, whenever it is polled. -/
theorem Elapsed_eq_ElapsedSpec_witness :
    Elapsed (run (New ⟨none⟩ (.ret (42 : Int) none) ⟨1, some 0⟩)
      [.bg (reading 8)]).f ⟨6, some 5⟩ = 5 ∧
    Elapsed (run (run (New ⟨none⟩ (.ret (42 : Int) none) ⟨1, some 0⟩)
      [.bg (reading 8), .bg (reading 8), .bg (reading 8)])
        [.bg (reading 19), .cancel]).f ⟨31, some 30⟩ = 8 := by
  constructor
  · rw [(Elapsed_eq_ElapsedSpec ⟨none⟩ (.ret (42 : Int) none) ⟨1, some 0⟩
      [.bg (reading 8)] ⟨6, some 5⟩).2.2.1 rfl]
    decide
  · rw [(Elapsed_eq_ElapsedSpec ⟨none⟩ (.ret (42 : Int) none) ⟨1, some 0⟩
      [.bg (reading 8), .bg (reading 8), .bg (reading 8)] ⟨31, some 30⟩).2.2.2.2.1 (by decide)
      [.bg (reading 19), .cancel] ⟨31, some 30⟩]
    decide

theorem isCallerOp_ne_bg {ev : Event} (h : ev.isCallerOp = true) : ∀ now, ev ≠ .bg now := by
  intro now hev; subst hev; simp [Event.isCallerOp] at h

theorem step_callerOp_parent {T : Type} (s : Sys T) (ev : Event)
    (h : ev.isCallerOp = true) : (step s ev).parent = s.parent := by
  apply step_parent
  cases ev <;> simp_all [Event.isCallerOp, Event.isHandleOp]

/-- A sequence of caller-side operations leaves the stored fields, the
goroutine and the parent scope as they are. -/
theorem run_callerOps_frame {T : Type} (evs : List Event) (s : Sys T)
    (h : ∀ ev ∈ evs, ev.isCallerOp = true) :
    (run s evs).f.result = s.f.result ∧ (run s evs).f.err = s.f.err ∧
    (run s evs).f.finish = s.f.finish ∧ (run s evs).f.start = s.f.start ∧
    (run s evs).bg = s.bg ∧ (run s evs).parent = s.parent := by
  induction evs generalizing s with
  | nil => exact ⟨rfl, rfl, rfl, rfl, rfl, rfl⟩
  | cons ev evs ih =>
    have hev := h ev (List.mem_cons_self _ _)
    obtain ⟨a, b, c, d, -, g⟩ := step_frame s ev (isCallerOp_ne_bg hev)
    obtain ⟨a', b', c', d', g', p'⟩ :=
      ih (step s ev) (fun e he => h e (List.mem_cons_of_mem _ he))
    exact ⟨a'.trans a, b'.trans b, c'.trans c, d'.trans d, g'.trans g,
      p'.trans (step_callerOp_parent s ev hev)⟩

/-- C5: from every reachable state of a handle, pending or completed, every
finite sequence of `Wait()`, `MustWait()`, `Elapsed()`, `Done()` and
`Cancel()` steps leaves `result`, `err` and the finish time as they were,
hence `Done()` as it was and the goroutine where it was; `Cancel()` on a
handle whose goroutine has run its own `cancel()` changes nothing; and every
`Wait()` that has returned after the sequence has returned the pair
`(result, err)` the handle stored before it. -/
theorem caller_ops_keep_outcome {T : Type} [Inhabited T] (ctx : Ctx) (fn : Work T)
    (now₀ : Time) (evs₀ evs : List Event) (hops : ∀ ev ∈ evs, ev.isCallerOp = true) :
    (run (run (New ctx fn now₀) evs₀) evs).f.result = (run (New ctx fn now₀) evs₀).f.result ∧
    (run (run (New ctx fn now₀) evs₀) evs).f.err = (run (New ctx fn now₀) evs₀).f.err ∧
    (run (run (New ctx fn now₀) evs₀) evs).f.finish = (run (New ctx fn now₀) evs₀).f.finish ∧
    Done (run (run (New ctx fn now₀) evs₀) evs).f = Done (run (New ctx fn now₀) evs₀).f ∧
    (run (run (New ctx fn now₀) evs₀) evs).bg = (run (New ctx fn now₀) evs₀).bg ∧
    ((run (New ctx fn now₀) evs₀).bg.scopeResolved = true →
      step (run (New ctx fn now₀) evs₀) .cancel = run (New ctx fn now₀) evs₀) ∧
    (∀ tid v e, (run (run (New ctx fn now₀) evs₀) evs).callers tid = .waitReturned v e →
      v = (run (New ctx fn now₀) evs₀).f.result ∧ e = (run (New ctx fn now₀) evs₀).f.err) := by
  obtain ⟨a, b, c, -, g, -⟩ := run_callerOps_frame evs (run (New ctx fn now₀) evs₀) hops
  refine ⟨a, b, c, by simp [Done, c], g, ?_, ?_⟩
  · intro hres
    have hne := (Inv_reachable ctx fn now₀ evs₀).resolved hres
    simp only [step]
    rw [cancel_err_of_some _ hne]
  intro tid v e hc
  have hinv : Inv now₀ (run (run (New ctx fn now₀) evs₀) evs) :=
    Inv_run _ (Inv_reachable ctx fn now₀ evs₀)
  have h := hinv.callers tid
  rw [hc] at h
  obtain ⟨-, hv, he⟩ := h
  exact ⟨hv.trans a, he.trans b⟩

/-- On a pending handle, `Cancel()` twice, `Done()`, `Elapsed()` and a
blocked `Wait()` leave the zero result, the absent error and `Done()`
false; on a completed handle they leave `(42, nil)`. -/
theorem caller_ops_keep_outcome_witness :
    Done (run (run (New ⟨none⟩ (.ret (42 : Int) none) ⟨1, some 0⟩) [])
      [.cancel, .cancel, .done, .elapsed ⟨3, some 2⟩, .call .wait 0]).f = false ∧
    (run (run (New ⟨none⟩ (.ret (42 : Int) none) ⟨1, some 0⟩) (List.replicate 5 (.bg (reading 8))))
      [.cancel, .call .wait 0, .call .mustWait 1, .cancel]).f.result = 42 := by
  constructor
  · rw [(caller_ops_keep_outcome ⟨none⟩ (.ret (42 : Int) none) ⟨1, some 0⟩ []
      [.cancel, .cancel, .done, .elapsed ⟨3, some 2⟩, .call .wait 0] (by decide)).2.2.2.1]
    rfl
  · rw [(caller_ops_keep_outcome ⟨none⟩ (.ret (42 : Int) none) ⟨1, some 0⟩
      (List.replicate 5 (.bg (reading 8)))
      [.cancel, .call .wait 0, .call .mustWait 1, .cancel] (by decide)).1]
    rfl

/-- C6: the write lock is held in the state `New` returns and, in every
reachable state, exactly until the goroutine's `Unlock`; when the
goroutine has unlocked it has written `result`, `err` and the finish time;
a thread past `RLock` runs with the write lock released; and in every
state in which a `Wait()` has returned `(v, e)`, the write lock is
released, the finish time has been written, `Done()` is true, and `(v, e)`
is the pair the work function returned and the handle stores. -/
theorem Wait_only_after_release {T : Type} [Inhabited T] (ctx : Ctx) (fn : Work T)
    (now₀ : Time) (evs : List Event) :
    (New ctx fn now₀).f.lock.writer = true ∧
    (run (New ctx fn now₀) evs).f.lock.writer = !(run (New ctx fn now₀) evs).bg.released ∧
    ((run (New ctx fn now₀) evs).bg.released = true →
      (run (New ctx fn now₀) evs).bg.finishWritten = true ∧
      (run (New ctx fn now₀) evs).bg =
        .finished (run (New ctx fn now₀) evs).f.result (run (New ctx fn now₀) evs).f.err) ∧
    (∀ tid, ((run (New ctx fn now₀) evs).callers tid).pastRLock = true →
      (run (New ctx fn now₀) evs).f.lock.writer = false) ∧
    (∀ tid v e, (run (New ctx fn now₀) evs).callers tid = .waitReturned v e →
      (run (New ctx fn now₀) evs).f.lock.writer = false ∧
      (run (New ctx fn now₀) evs).bg.finishWritten = true ∧
      (run (New ctx fn now₀) evs).bg = .finished v e ∧
      (run (New ctx fn now₀) evs).f.result = v ∧ (run (New ctx fn now₀) evs).f.err = e ∧
      Done (run (New ctx fn now₀) evs).f = true) := by
  have hinv := Inv_reachable ctx fn now₀ evs
  have hrel : (run (New ctx fn now₀) evs).bg.released = true →
      (run (New ctx fn now₀) evs).bg.finishWritten = true ∧
      (run (New ctx fn now₀) evs).bg =
        .finished (run (New ctx fn now₀) evs).f.result (run (New ctx fn now₀) evs).f.err := by
    intro hr
    have hfin := finished_of_released hinv hr
    exact ⟨by rw [hfin]; rfl, hfin⟩
  have hpast : ∀ tid, ((run (New ctx fn now₀) evs).callers tid).pastRLock = true →
      (run (New ctx fn now₀) evs).bg.released = true := by
    intro tid hp
    have h := hinv.callers tid
    revert h hp
    cases (run (New ctx fn now₀) evs).callers tid <;> simp [Pc.pastRLock, callerOk] <;>
      intros <;> assumption
  refine ⟨rfl, hinv.writer_eq, hrel, ?_, ?_⟩
  · intro tid hp
    rw [hinv.writer_eq, hpast tid hp]; rfl
  · intro tid v e hc
    have hr := hpast tid (by rw [hc]; rfl)
    have h := hinv.callers tid
    rw [hc] at h
    obtain ⟨-, rfl, rfl⟩ := h
    exact ⟨by rw [hinv.writer_eq, hr]; rfl, (hrel hr).1, (hrel hr).2, rfl, rfl,
      Done_of_finishWritten hinv (hrel hr).1⟩

/-- A `Wait()` that is scheduled while the goroutine still runs stays
blocked; after the goroutine has finished it returns `(42, nil)` with the
lock released and `Done()` true. -/
theorem Wait_only_after_release_witness :
    (run (New ⟨none⟩ (.ret (42 : Int) none) ⟨1, some 0⟩)
      [.call .wait 0, .call .wait 0]).callers 0 = .idle ∧
    (run (New ⟨none⟩ (.ret (42 : Int) none) ⟨1, some 0⟩)
      ([.call .wait 0, .call .wait 0] ++ List.replicate 5 (.bg (reading 8)) ++
        List.replicate 4 (.call .wait 0))).f.lock.writer = false ∧
    Done (run (New ⟨none⟩ (.ret (42 : Int) none) ⟨1, some 0⟩)
      ([.call .wait 0, .call .wait 0] ++ List.replicate 5 (.bg (reading 8)) ++
        List.replicate 4 (.call .wait 0))).f = true := by
  have h := (Wait_only_after_release ⟨none⟩ (.ret (42 : Int) none) ⟨1, some 0⟩
      ([Event.call .wait 0, Event.call .wait 0] ++ List.replicate 5 (Event.bg (reading 8)) ++
        List.replicate 4 (Event.call .wait 0))).2.2.2.2 0 42 none rfl
  exact ⟨rfl, h.1, h.2.2.2.2.2⟩

/-! ## Cancellation -/

/-- Once a derived scope reports an error, it reports that error for good. -/
theorem child_err_step {T : Type} (s : Sys T) (ev : Event) (e : GoError)
    (h : s.child.err = some e) : (step s ev).child.err = some e := by
  have hc : s.child.cancel = s.child := cancel_err_of_some _ (by simp [h])
  cases ev with
  | bg now =>
    obtain ⟨f, parent, child, bg, callers⟩ := s
    cases bg with
    | running w => cases w <;> exact h
    | wroteFinish v e' => simp only [step, stepBg]; simp only at hc; rw [hc]; exact h
    | _ => exact h
  | call c tid =>
    show (stepCall s c tid).child.err = some e
    rw [(stepCall_frame s c tid).2.2.2.2.2.2.2]; exact h
  | cancel => simp only [step]; rw [hc]; exact h
  | done => exact h
  | elapsed now => exact h
  | parentCancel e' => exact h
  | propagate =>
    show (s.child.inherit s.parent).err = some e
    rw [inherit_err_of_some _ _ (by simp [h])]; exact h

theorem child_err_run {T : Type} (evs : List Event) (s : Sys T) (e : GoError)
    (h : s.child.err = some e) : (run s evs).child.err = some e := by
  induction evs generalizing s with
  | nil => exact h
  | cons ev evs ih => exact ih _ (child_err_step s ev e h)

theorem scopeSeen_step (err : GoError) (s : Sys Int) (ev : Event) (h : scopeSeen err s) :
    scopeSeen err (step s ev) := by
  obtain ⟨hc, hb⟩ := h
  refine ⟨child_err_step s ev _ hc, ?_⟩
  by_cases hne : ∀ now, ev ≠ .bg now
  · rw [(step_frame s ev hne).2.2.2.2.2]; exact hb
  · push_neg at hne
    obtain ⟨now, rfl⟩ := hne
    obtain ⟨f, parent, child, bg, callers⟩ := s
    simp only at hc hb
    rcases hb with hb | hb | hb | hb | hb
    · subst hb; right; left; rfl
    · subst hb; right; right; left
      simp [step, stepBg, cancelExampleBody, hc]
    · subst hb; right; right; right; left
      simp [step, stepBg, hc]
    · subst hb; right; right; right; right; rfl
    · right; right; right; right
      exact outcome_step _ _ _ hb

theorem scopeSeen_run (err : GoError) (evs : List Event) (s : Sys Int)
    (h : scopeSeen err s) : scopeSeen err (run s evs) := by
  induction evs generalizing s with
  | nil => exact h
  | cons ev evs ih => exact ih _ (scopeSeen_step err s ev h)

/-- What `Cancel()` leaves in the derived scope: `context.Canceled` when the
scope was live, the error it had otherwise. -/
theorem cancel_err_getD (c : Ctx) : c.cancel.err = some (c.err.getD .canceled) := by
  unfold Ctx.cancel
  cases h : c.err <;> simp [h]

/-- With a parent that is live or was cancelled with `context.Canceled`,
`Cancel()` leaves the derived scope with `context.Canceled`. -/
theorem cancel_canceled_of_parent {T : Type} [Inhabited T] {now₀ : Time} {s : Sys T}
    (hs : Inv now₀ s) (hp : s.parent.err = none ∨ s.parent.err = some .canceled) :
    (step s .cancel).child.err = some .canceled := by
  show s.child.cancel.err = some .canceled
  rw [cancel_err_getD]
  rcases hs.scope with h | h | h
  · simp [h]
  · simp [h]
  · rcases hp with hp | hp <;> simp [h, hp]

/-- C7 as stated fails: the parent scope had already expired when the
handle was made, `Cancel()` is called before the work function looks at
its scope, and the scope's error is `context deadline exceeded`, which is
what `Wait()` returns with `0`. -/
theorem Cancel_after_expired_parent :
    (step (New ⟨some .deadlineExceeded⟩ cancelExample ⟨1, some 0⟩) .cancel).child.err =
      some .deadlineExceeded ∧
    (run (New ⟨some .deadlineExceeded⟩ cancelExample ⟨1, some 0⟩)
      ([.cancel] ++ List.replicate 8 (.bg (reading 8)) ++
        List.replicate 4 (.call .wait 0))).callers 0 =
      .waitReturned 0 (some .deadlineExceeded) ∧
    GoError.deadlineExceeded.Error ≠ "context canceled" := by
  refine ⟨rfl, rfl, by decide⟩

/-- C7, amended: in every reachable state `Cancel()` leaves the derived
scope with an error, which the scope keeps in every later state and which
every later `ctx.Err()` of the work function yields: `context canceled`
when the scope was live, and the error the scope had when it was not, in
which case `Cancel()` changes nothing at all.  The error is
`context canceled` unless the parent has ended the derived scope with
another error, which is then the parent's own error; in particular it is
`context canceled` whenever the parent is live or was cancelled with
`context canceled`.  For the work function of `ExampleFuture_Cancel`, when
`Cancel()` is called before it has looked at its scope, every `Wait()`
that returns afterwards returns `(0, scope error)`, a `Wait()` started by
an idle thread does return it, and it is `(0, context canceled)` whenever
the parent is live or was cancelled with `context canceled`. -/
theorem Cancel_ends_scope {T : Type} [Inhabited T] (ctx : Ctx) (fn : Work T)
    (now₀ : Time) (evs : List Event) :
    (step (run (New ctx fn now₀) evs) .cancel).child.err =
      some ((run (New ctx fn now₀) evs).child.err.getD .canceled) ∧
    (∀ evs', (run (step (run (New ctx fn now₀) evs) .cancel) evs').child.err =
      (step (run (New ctx fn now₀) evs) .cancel).child.err) ∧
    (∀ evs' k now, (run (step (run (New ctx fn now₀) evs) .cancel) evs').bg =
        .running (.inspect k) →
      (step (run (step (run (New ctx fn now₀) evs) .cancel) evs') (.bg now)).bg =
        .running (k (step (run (New ctx fn now₀) evs) .cancel).child.err)) ∧
    ((run (New ctx fn now₀) evs).child.err ≠ none →
      step (run (New ctx fn now₀) evs) .cancel = run (New ctx fn now₀) evs) ∧
    ((step (run (New ctx fn now₀) evs) .cancel).child.err = some .canceled ∨
      ((run (New ctx fn now₀) evs).child.err = (run (New ctx fn now₀) evs).parent.err ∧
       (step (run (New ctx fn now₀) evs) .cancel).child.err =
          (run (New ctx fn now₀) evs).parent.err)) ∧
    (((run (New ctx fn now₀) evs).parent.err = none ∨
        (run (New ctx fn now₀) evs).parent.err = some .canceled) →
      (step (run (New ctx fn now₀) evs) .cancel).child.err = some .canceled) ∧
    (∀ (ctx₁ : Ctx) (now₁ : Time) (evs₁ : List Event),
      ((run (New ctx₁ cancelExample now₁) evs₁).bg = .running cancelExample ∨
        (run (New ctx₁ cancelExample now₁) evs₁).bg = .running cancelExampleBody) →
      ∃ err, (step (run (New ctx₁ cancelExample now₁) evs₁) .cancel).child.err = some err ∧
        (((run (New ctx₁ cancelExample now₁) evs₁).parent.err = none ∨
            (run (New ctx₁ cancelExample now₁) evs₁).parent.err = some .canceled) →
          err = .canceled) ∧
        (∀ evs' tid v e,
          (run (step (run (New ctx₁ cancelExample now₁) evs₁) .cancel) evs').callers tid =
            .waitReturned v e → v = 0 ∧ e = some err) ∧
        (∀ now tid, (run (New ctx₁ cancelExample now₁) evs₁).callers tid = .idle →
          (run (step (run (New ctx₁ cancelExample now₁) evs₁) .cancel)
            (List.replicate 4 (.bg now) ++ List.replicate 4 (.bg now) ++
              List.replicate 4 (.call .wait tid))).callers tid =
            .waitReturned 0 (some err))) := by
  have hcan : ∀ {U : Type} (s : Sys U),
      (step s .cancel).child.err = some (s.child.err.getD .canceled) :=
    fun s => cancel_err_getD s.child
  have hinv := Inv_reachable ctx fn now₀ evs
  have hkeep : ∀ evs', (run (step (run (New ctx fn now₀) evs) .cancel) evs').child.err =
      (step (run (New ctx fn now₀) evs) .cancel).child.err := by
    intro evs'
    rw [hcan]
    exact child_err_run evs' _ _ (hcan _)
  refine ⟨hcan _, hkeep, ?_, ?_, ?_, cancel_canceled_of_parent hinv, ?_⟩
  · intro evs' k now hb
    rw [← hkeep evs']
    revert hb
    generalize run (step (run (New ctx fn now₀) evs) .cancel) evs' = s'
    intro hb
    obtain ⟨f, parent, child, bg, callers⟩ := s'
    simp only at hb
    subst hb
    rfl
  · intro hne
    simp only [step]
    rw [cancel_err_of_some _ hne]
  · rw [hcan]
    rcases hinv.scope with h | h | h
    · left; simp [h]
    · left; simp [h]
    · cases hp : (run (New ctx fn now₀) evs).parent.err with
      | none => left; simp [h, hp]
      | some e => right; exact ⟨h.trans hp, by simp [h, hp]⟩
  · intro ctx₁ now₁ evs₁ hbg
    have hinv₁ := Inv_reachable ctx₁ cancelExample now₁ evs₁
    refine ⟨(run (New ctx₁ cancelExample now₁) evs₁).child.err.getD .canceled, hcan _, ?_, ?_, ?_⟩
    · intro hp
      exact Option.some.inj
        ((hcan (run (New ctx₁ cancelExample now₁) evs₁)).symm.trans
          (cancel_canceled_of_parent hinv₁ hp))
    · intro evs' tid v e hc
      have hseen : scopeSeen ((run (New ctx₁ cancelExample now₁) evs₁).child.err.getD .canceled)
          (step (run (New ctx₁ cancelExample now₁) evs₁) .cancel) := by
        refine ⟨hcan _, ?_⟩
        rcases hbg with h | h
        · left; exact h
        · right; left; exact h
      have hinv' := Inv_run evs' (Inv_step hinv₁ .cancel)
      have h := hinv'.callers tid
      rw [hc] at h
      obtain ⟨hr, rfl, rfl⟩ := h
      have hfin := finished_of_released hinv' hr
      obtain ⟨-, hb⟩ := scopeSeen_run _ evs' _ hseen
      rw [hfin] at hb
      simpa [Bg.outcome] using hb
    · intro now tid hidle
      have hout : (run (step (run (New ctx₁ cancelExample now₁) evs₁) .cancel)
          (List.replicate 4 (.bg now))).bg.outcome =
          some (0, some ((run (New ctx₁ cancelExample now₁) evs₁).child.err.getD .canceled)) := by
        have hc := hcan (run (New ctx₁ cancelExample now₁) evs₁)
        have hb : (step (run (New ctx₁ cancelExample now₁) evs₁) .cancel).bg =
              .running cancelExample ∨
            (step (run (New ctx₁ cancelExample now₁) evs₁) .cancel).bg =
              .running cancelExampleBody := hbg
        revert hc hb
        generalize (run (New ctx₁ cancelExample now₁) evs₁).child.err.getD .canceled = err
        generalize step (run (New ctx₁ cancelExample now₁) evs₁) .cancel = s
        intro hc hb
        obtain ⟨f, parent, child, bg, callers⟩ := s
        simp only at hc hb
        rcases hb with h | h <;> subst h <;>
          simp [run, step, stepBg, cancelExample, cancelExampleBody, hc, Bg.outcome]
      rw [run_append, run_append]
      have hinv' : Inv now₁ (run (run (step (run (New ctx₁ cancelExample now₁) evs₁) .cancel)
          (List.replicate 4 (.bg now))) (List.replicate 4 (.bg now))) :=
        Inv_run _ (Inv_run _ (Inv_step hinv₁ .cancel))
      refine call_completes _ hinv' 0 _ (bg_finishes _ _ _ now hout) .wait tid ?_
      rw [run_bg_callers, run_bg_callers]
      exact hidle

/-- The example `ExampleFuture_Cancel`: the parent is `context.Background()`,
`Cancel()` follows `New` at once, the scope's error is `context canceled`
and `Wait()` returns `(0, context canceled)`; and a second `Cancel()`
changes nothing. -/
theorem Cancel_ends_scope_witness :
    (step (run (New ⟨none⟩ cancelExample ⟨1, some 0⟩) []) .cancel).child.err =
      some .canceled ∧
    (run (New ⟨none⟩ cancelExample ⟨1, some 0⟩)
      ([.cancel] ++ List.replicate 8 (.bg (reading 8)) ++
        List.replicate 4 (.call .wait 0))).callers 0 = .waitReturned 0 (some .canceled) ∧
    step (run (New ⟨none⟩ cancelExample ⟨1, some 0⟩) [.cancel]) .cancel =
      run (New ⟨none⟩ cancelExample ⟨1, some 0⟩) [.cancel] ∧
    GoError.canceled.Error = "context canceled" := by
  refine ⟨(Cancel_ends_scope ⟨none⟩ cancelExample ⟨1, some 0⟩ []).2.2.2.2.2.1 (Or.inl rfl),
    rfl, (Cancel_ends_scope ⟨none⟩ cancelExample ⟨1, some 0⟩ [.cancel]).2.2.2.1 (by decide), rfl⟩

/-! ## The lock discipline -/

/-- C8 fails on the code: in the state in which the goroutine's next
statement is `f.finish = time.Now()`, a call of `Done()` or of `Elapsed()`
can read `finish` as well, because neither takes the lock; the reads of
`Wait()` and `MustWait()`, which hold the read lock, never meet a write of
the goroutine in any reachable state. -/
theorem Done_races_with_finish_write :
    (run (New ⟨none⟩ (.ret (42 : Int) none) ⟨1, some 0⟩)
      [.bg (reading 8), .bg (reading 8)]).bg.writes = some .finish ∧
    races (run (New ⟨none⟩ (.ret (42 : Int) none) ⟨1, some 0⟩)
      [.bg (reading 8), .bg (reading 8)]) .Done = true ∧
    races (run (New ⟨none⟩ (.ret (42 : Int) none) ⟨1, some 0⟩)
      [.bg (reading 8), .bg (reading 8)]) .Elapsed = true ∧
    (∀ (T : Type) [Inhabited T] (ctx : Ctx) (fn : Work T) (now₀ : Time) (evs : List Event),
      races (run (New ctx fn now₀) evs) .Wait = false ∧
      races (run (New ctx fn now₀) evs) .MustWait = false) := by
  refine ⟨rfl, by decide, by decide, ?_⟩
  intro T _ ctx fn now₀ evs
  have hinv := Inv_reachable ctx fn now₀ evs
  have hw : (run (New ctx fn now₀) evs).bg.writes ≠ none →
      (run (New ctx fn now₀) evs).f.lock.writer = true := by
    rw [hinv.writer_eq]
    cases (run (New ctx fn now₀) evs).bg <;> simp [Bg.writes, Bg.released]
  constructor <;>
  · unfold races
    cases hb : (run (New ctx fn now₀) evs).bg.writes with
    | none => rfl
    | some fld => simp [canRead, Method.underRLock, hw (by simp [hb])]

/-! ## Polling `Elapsed()` -/

theorem clampDuration_mono {a b : Int} (h : a ≤ b) : clampDuration a ≤ clampDuration b := by
  simp only [clampDuration, minDuration, maxDuration]
  split_ifs <;> omega

theorem clampDuration_strict {a b : Int} (h : a < b) (ha : minDuration ≤ a)
    (hb : b ≤ maxDuration) : clampDuration a < clampDuration b := by
  simp only [clampDuration, minDuration, maxDuration] at *
  split_ifs <;> omega

theorem le_clampDuration {a : Int} (ha : a ≤ maxDuration) : a ≤ clampDuration a := by
  simp only [clampDuration, minDuration, maxDuration] at *
  split_ifs <;> omega

/-- C9 as stated fails: on a pending handle two calls of `Elapsed()` that
read the same clock value return the same duration, so the second is not
strictly larger; and a reading further from the start than the largest
`Duration` yields less than the time elapsed. -/
theorem Elapsed_not_strictly_increasing :
    Done (New ⟨none⟩ (Work.hang : Work Int) ⟨1000, some 0⟩).f = false ∧
    Elapsed (New ⟨none⟩ (Work.hang : Work Int) ⟨1000, some 0⟩).f ⟨1005, some 5⟩ = 5 ∧
    (¬ ∀ now₁ now₂ : Time, now₁.diff ⟨1000, some 0⟩ ≤ now₂.diff ⟨1000, some 0⟩ →
      Elapsed (New ⟨none⟩ (Work.hang : Work Int) ⟨1000, some 0⟩).f now₁ <
        Elapsed (New ⟨none⟩ (Work.hang : Work Int) ⟨1000, some 0⟩).f now₂) ∧
    Elapsed (New ⟨none⟩ (Work.hang : Work Int) ⟨1000, some 0⟩).f ⟨2 ^ 63 + 1005, some (2 ^ 63 + 5)⟩ <
      (⟨2 ^ 63 + 1005, some (2 ^ 63 + 5)⟩ : Time).diff ⟨1000, some 0⟩ := by
  refine ⟨rfl, by decide, ?_, by decide⟩
  intro h
  exact absurd (h ⟨1005, some 5⟩ ⟨1005, some 5⟩ (le_refl _)) (lt_irrefl _)

/-- C9, amended: on a handle whose finish time is unset, `Elapsed()` is the
clock time elapsed since the reading of `New`, saturated to the range of
`Duration`; so of two calls the one that reads no less elapsed clock time
returns no less, it returns strictly more when the clock has advanced
between the two and both readings lie in the `Duration` range, and each
value is at least the clock time elapsed whenever that time does not
exceed the largest `Duration`; in particular, with monotonic clock
readings that do not decrease, `Elapsed()` does not decrease. -/
theorem Elapsed_pending_monotone {T : Type} [Inhabited T] (ctx : Ctx) (fn : Work T)
    (now₀ : Time) (evs : List Event) (now₁ now₂ : Time)
    (hpending : Done (run (New ctx fn now₀) evs).f = false)
    (hclock : now₁.diff now₀ ≤ now₂.diff now₀) :
    Elapsed (run (New ctx fn now₀) evs).f now₁ = clampDuration (now₁.diff now₀) ∧
    Elapsed (run (New ctx fn now₀) evs).f now₁ ≤ Elapsed (run (New ctx fn now₀) evs).f now₂ ∧
    (now₁.diff now₀ < now₂.diff now₀ → minDuration ≤ now₁.diff now₀ →
      now₂.diff now₀ ≤ maxDuration →
      Elapsed (run (New ctx fn now₀) evs).f now₁ < Elapsed (run (New ctx fn now₀) evs).f now₂) ∧
    (now₁.diff now₀ ≤ maxDuration →
      now₁.diff now₀ ≤ Elapsed (run (New ctx fn now₀) evs).f now₁) ∧
    (∀ w₀ m₀ w m w' m', now₀ = ⟨w₀, some m₀⟩ → m ≤ m' →
      Elapsed (run (New ctx fn now₀) evs).f ⟨w, some m⟩ ≤
        Elapsed (run (New ctx fn now₀) evs).f ⟨w', some m'⟩) := by
  have hstart := (Inv_reachable ctx fn now₀ evs).start_eq
  have hE : ∀ now, Elapsed (run (New ctx fn now₀) evs).f now = clampDuration (now.diff now₀) := by
    intro now; simp [Elapsed, hpending, Since, Time.Sub, hstart]
  refine ⟨hE now₁, ?_, ?_, ?_, ?_⟩
  · rw [hE now₁, hE now₂]; exact clampDuration_mono hclock
  · intro h ha hb; rw [hE now₁, hE now₂]; exact clampDuration_strict h ha hb
  · intro h; rw [hE now₁]; exact le_clampDuration h
  · intro w₀ m₀ w m w' m' h₀ hm
    rw [hE, hE, h₀]
    apply clampDuration_mono
    simp only [Time.diff]
    omega

/-- A pending handle started at monotonic reading 0, polled at readings 5
and 7: `Elapsed()` returns 5, then something larger. -/
theorem Elapsed_pending_monotone_witness :
    Elapsed (run (New ⟨none⟩ (Work.hang : Work Int) ⟨1000, some 0⟩) [.bg (reading 1)]).f
      ⟨1005, some 5⟩ = 5 ∧
    Elapsed (run (New ⟨none⟩ (Work.hang : Work Int) ⟨1000, some 0⟩) [.bg (reading 1)]).f
      ⟨1005, some 5⟩ <
    Elapsed (run (New ⟨none⟩ (Work.hang : Work Int) ⟨1000, some 0⟩) [.bg (reading 1)]).f
      ⟨1007, some 7⟩ := by
  have h := Elapsed_pending_monotone ⟨none⟩ (Work.hang : Work Int) ⟨1000, some 0⟩
    [.bg (reading 1)] ⟨1005, some 5⟩ ⟨1007, some 7⟩ rfl (by decide)
  exact ⟨h.1.trans (by decide), h.2.2.1 (by decide) (by decide) (by decide)⟩

/-! ## The scopes -/

theorem run_parent {T : Type} (evs : List Event) (s : Sys T)
    (h : ∀ ev ∈ evs, ev.isHandleOp = true) : (run s evs).parent = s.parent := by
  induction evs generalizing s with
  | nil => rfl
  | cons ev evs ih =>
    rw [run_cons, ih _ (fun e he => h e (List.mem_cons_of_mem _ he))]
    exact step_parent s ev (h ev (List.mem_cons_self _ _))

/-- An event other than the cancellation of the parent keeps "the derived
scope is cancelled when the parent is". -/
theorem follows_step {T : Type} (s : Sys T) (ev : Event) (hev : ∀ e, ev ≠ .parentCancel e)
    (h : s.parent.err ≠ none → s.child.err ≠ none) :
    (step s ev).parent.err ≠ none → (step s ev).child.err ≠ none := by
  cases ev with
  | parentCancel e => exact absurd rfl (hev e)
  | propagate => exact inherit_err_ne_none _ _
  | bg now =>
    intro hp
    rw [step_parent s (.bg now) rfl] at hp
    obtain ⟨e, he⟩ := Option.ne_none_iff_exists'.mp (h hp)
    rw [child_err_step s _ e he]; simp
  | call c tid =>
    intro hp
    rw [step_parent s (.call c tid) rfl] at hp
    obtain ⟨e, he⟩ := Option.ne_none_iff_exists'.mp (h hp)
    rw [child_err_step s _ e he]; simp
  | cancel => intro _; exact cancel_err_ne_none _
  | done => exact h
  | elapsed now => exact h

/-- On a schedule that delivers every cancellation of the parent at once,
the derived scope is cancelled whenever the parent is. -/
theorem follows_run {T : Type} (evs : List Event) :
    ∀ s : Sys T, delivered evs = true → (s.parent.err ≠ none → s.child.err ≠ none) →
      (run s evs).parent.err ≠ none → (run s evs).child.err ≠ none := by
  induction evs using delivered.induct with
  | case1 => intro s _ h; exact h
  | case2 e evs ih =>
    intro s hd _
    rw [run_cons, run_cons]
    exact ih _ (by simpa [delivered] using hd) (inherit_err_ne_none _ _)
  | case3 e evs hne =>
    intro s hd
    exfalso
    revert hd
    cases evs with
    | nil => simp [delivered]
    | cons ev evs =>
      cases ev <;> simp [delivered]
      exact absurd rfl (hne _)
  | case4 ev evs hne₁ hne₂ ih =>
    intro s hd h
    rw [run_cons]
    refine ih _ ?_ (follows_step s ev (fun e he => hne₂ e (by rw [he])) h)
    cases ev <;> simpa [delivered] using hd

/-- C10 as stated fails in its last part: the owner of the parent scope has
cancelled it, the cancellation has not yet been delivered to the scope
derived by `context.WithCancel`, and the derived scope is still live. -/
theorem parent_cancelled_scope_live :
    (run (New ⟨none⟩ (Work.hang : Work Int) ⟨1, some 0⟩)
      [.parentCancel .canceled]).parent.err = some .canceled ∧
    (run (New ⟨none⟩ (Work.hang : Work Int) ⟨1, some 0⟩)
      [.parentCancel .canceled]).child.err = none := by
  exact ⟨rfl, rfl⟩

/-- C10, amended: `New` leaves the parent scope as the caller supplied it;
in every reachable state in which the goroutine has run its own
`cancel()`, and so in every state in which it has released the lock, the
derived scope is cancelled, whatever the work function did and whether or
not `Cancel()` was called; no operation of the handle (a statement of the
goroutine, a `Wait`, `MustWait`, `Cancel`, `Done` or `Elapsed` step)
changes the parent scope, so after any sequence of them it is as supplied;
and a cancellation of the parent reaches the derived scope: a parent
already cancelled when `New` is called gives a derived scope that reports
cancelled in every state, the delivery of the parent's cancellation makes
the derived scope report cancelled from then on, and on every schedule
that delivers each cancellation of the parent at once the derived scope
reports cancelled whenever the parent is cancelled. -/
theorem handle_cancels_only_derived_scope {T : Type} [Inhabited T] (ctx : Ctx) (fn : Work T)
    (now₀ : Time) (evs : List Event) :
    (New ctx fn now₀).parent = ctx ∧
    ((run (New ctx fn now₀) evs).bg.scopeResolved = true →
      (run (New ctx fn now₀) evs).child.err ≠ none) ∧
    ((run (New ctx fn now₀) evs).bg.released = true →
      (run (New ctx fn now₀) evs).child.err ≠ none) ∧
    (∀ ev, ev.isHandleOp = true →
      (step (run (New ctx fn now₀) evs) ev).parent = (run (New ctx fn now₀) evs).parent) ∧
    ((∀ ev ∈ evs, ev.isHandleOp = true) → (run (New ctx fn now₀) evs).parent = ctx) ∧
    (ctx.err ≠ none → (run (New ctx fn now₀) evs).child.err ≠ none) ∧
    ((run (New ctx fn now₀) evs).parent.err ≠ none → ∀ evs',
      (run (step (run (New ctx fn now₀) evs) .propagate) evs').child.err ≠ none) ∧
    (delivered evs = true → (run (New ctx fn now₀) evs).parent.err ≠ none →
      (run (New ctx fn now₀) evs).child.err ≠ none) := by
  have hinv := Inv_reachable ctx fn now₀ evs
  refine ⟨rfl, hinv.resolved, ?_, fun ev h => step_parent _ ev h, fun h => run_parent evs _ h,
    ?_, ?_, ?_⟩
  · intro hr
    apply hinv.resolved
    revert hr
    cases (run (New ctx fn now₀) evs).bg <;> simp [Bg.released, Bg.scopeResolved]
  · intro hctx
    obtain ⟨e, he⟩ := Option.ne_none_iff_exists'.mp hctx
    rw [child_err_run evs (New ctx fn now₀) e he]; simp
  · intro hp evs'
    obtain ⟨e, he⟩ := Option.ne_none_iff_exists'.mp
      (inherit_err_ne_none (run (New ctx fn now₀) evs).child _ hp)
    rw [child_err_run evs' (step (run (New ctx fn now₀) evs) .propagate) e he]; simp
  · intro hd
    exact follows_run evs (New ctx fn now₀) hd (fun h => h)

/-- A work function that returns `(42, nil)` without looking at its scope,
and no `Cancel()`: after the goroutine's `cancel()` the derived scope
reports an error while the parent, `context.Background()`, does not; and a
parent cancelled with its cancellation delivered leaves the derived scope
cancelled. -/
theorem handle_cancels_only_derived_scope_witness :
    (run (New ⟨none⟩ (.ret (42 : Int) none) ⟨1, some 0⟩)
      (List.replicate 4 (.bg (reading 8)))).child.err ≠ none ∧
    (run (New ⟨none⟩ (.ret (42 : Int) none) ⟨1, some 0⟩)
      (List.replicate 4 (.bg (reading 8)))).parent = ⟨none⟩ ∧
    (run (New ⟨none⟩ (.ret (42 : Int) none) ⟨1, some 0⟩)
      [.bg (reading 8), .parentCancel .deadlineExceeded, .propagate]).child.err ≠ none := by
  have h := handle_cancels_only_derived_scope ⟨none⟩ (.ret (42 : Int) none) ⟨1, some 0⟩
    (List.replicate 4 (Event.bg (reading 8)))
  exact ⟨h.2.1 rfl, h.2.2.2.2.1 (by decide),
    (handle_cancels_only_derived_scope ⟨none⟩ (.ret (42 : Int) none) ⟨1, some 0⟩
      [Event.bg (reading 8), Event.parentCancel .deadlineExceeded, Event.propagate]).2.2.2.2.2.2.2
      rfl (by decide)⟩

end future
